import Mathlib

/-!
Shallow embedding of the HTTP/1.x framing engine of the repository
(src/index.ts) together with proofs about its buffer algebra, message
framing, body readers, chunked transfer coding and per-connection driver.

Buffers are modelled as lists of byte values (Nat, each < 256 in intended
use; the development nowhere depends on the bound).  Stateful generator
code is modelled as explicit state machines with step functions; the
network is modelled as the list of packets that successive soRead calls
would deliver, an exhausted list standing for a connection on which the
peer has signalled end (so that soRead yields the empty buffer).
-/

deriving instance DecidableEq for Except

namespace Srv

/-- Byte list of an ASCII string, used to state concrete wire examples. -/
def toBytes (s : String) : List Nat := s.data.map Char.toNat

/-- Errors thrown by the server code.  The source distinguishes the
HTTPError class, which carries a status code, from plain Error values,
which do not; newConn only ever writes an error response for the former. -/
inductive ServerErr where
  | http (code : Nat) (msg : String)
  | plain (msg : String)
deriving DecidableEq, Repr

/-- Models the error classification in newConn (src/index.ts lines 486-499):
a caught HTTPError is answered with a best-effort response carrying its
status code; every other error produces no response at all. -/
def respondsWith : ServerErr → Option Nat
  | .http code _ => some code
  | .plain _ => none

/-- First index at which pat occurs as a contiguous subsequence of l,
modelling Buffer.indexOf (which returns -1, here none, when absent). -/
def findSub : List Nat → List Nat → Option Nat
  | [], pat => if pat = [] then some 0 else none
  | b :: rest, pat =>
    if pat.isPrefixOf (b :: rest) then some 0
    else (findSub rest pat).map (· + 1)

/-- Whitespace bytes skipped by the JavaScript parseInt before parsing. -/
def isWs (b : Nat) : Bool :=
  b = 32 || b = 9 || b = 10 || b = 13 || b = 11 || b = 12

/-- Numeric value of a byte as a digit under the given radix, following
the JavaScript rules: 0-9, then A-Z and a-z for values 10 and up. -/
def digitVal (radix b : Nat) : Option Nat :=
  if 48 ≤ b ∧ b ≤ 57 then
    if b - 48 < radix then some (b - 48) else none
  else if 65 ≤ b ∧ b ≤ 90 then
    if b - 55 < radix then some (b - 55) else none
  else if 97 ≤ b ∧ b ≤ 122 then
    if b - 87 < radix then some (b - 87) else none
  else none

/-- Longest prefix of digit values valid under the radix. -/
def takeDigits (radix : Nat) : List Nat → List Nat
  | [] => []
  | b :: rest =>
    match digitVal radix b with
    | some v => v :: takeDigits radix rest
    | none => []

/-- Strips a 0x or 0X prefix when present. -/
def strip0x (l : List Nat) : List Nat :=
  if l.headD 0 = 48 ∧ (l.tail.headD 0 = 120 ∨ l.tail.headD 0 = 88) then l.tail.tail else l

/-- True when the list starts with 0x or 0X. -/
def has0x (l : List Nat) : Bool :=
  decide (l.headD 0 = 48) && (decide (l.tail.headD 0 = 120) || decide (l.tail.headD 0 = 88))

/-- Models the JavaScript parseInt applied to the given bytes: skip
leading whitespace, read an optional sign, honour a hexadecimal 0x
prefix (always stripped when the radix argument is 16, and switching
the radix to 16 when no radix argument was given), then take the
longest run of digits valid under the radix; no digits means NaN,
modelled as none.  The source calls this with no radix argument for
Content-Length values and with radix 16 for chunk-size lines. -/
def jsParseInt (bs : List Nat) (radixArg : Option Nat) : Option Int :=
  let bs1 := bs.dropWhile isWs
  let sign : Int := if bs1.headD 0 = 45 then -1 else 1
  let bs2 : List Nat := if bs1.headD 0 = 45 ∨ bs1.headD 0 = 43 then bs1.tail else bs1
  let rx : Nat × List Nat :=
    match radixArg with
    | some 16 => (16, strip0x bs2)
    | none => if has0x bs2 then (16, strip0x bs2) else (10, bs2)
    | some r => (r, bs2)
  let ds := takeDigits rx.1 rx.2
  if ds = [] then none
  else some (sign * (ds.foldl (fun a d => a * rx.1 + d) 0 : Nat))

/-- Lowercase hex digit byte for a value below 16, as produced by the
JavaScript Number.toString with base 16. -/
def hexDigitByte (n : Nat) : Nat := if n < 10 then 48 + n else 87 + n

/-- Hex digit bytes of n, most significant first, empty for 0; the fuel
argument bounds the recursion depth and n itself is always sufficient. -/
def natToHexGo : Nat → Nat → List Nat
  | 0, _ => []
  | _ + 1, 0 => []
  | fuel + 1, n + 1 =>
    natToHexGo fuel ((n + 1) / 16) ++ [hexDigitByte ((n + 1) % 16)]

/-- Byte rendering of n in lowercase hexadecimal, modelling the
JavaScript expression data.length.toString(16). -/
def natToHex (n : Nat) : List Nat :=
  if n = 0 then [48] else natToHexGo n n

/-- Dynamic buffer of src/types.ts: a backing byte store (data) plus the
logical length of the unread region, which occupies positions 0 up to
length of the store. -/
structure DynBufM where
  data : List Nat
  length : Nat
deriving DecidableEq, Repr

/-- Logical contents of the buffer, the bytes at positions below length. -/
def bufContents (b : DynBufM) : List Nat := b.data.take b.length

/-- Doubling loop of bufPush: while cap < newLen, cap *= 2.  The fuel
argument makes the recursion structural; fuel equal to newLen always
suffices because the capacity at least doubles per step from a positive
start, and on exhausted fuel the current capacity is returned. -/
def growCapGo : Nat → Nat → Nat → Nat
  | 0, cap, _ => cap
  | fuel + 1, cap, newLen => if cap < newLen then growCapGo fuel (cap * 2) newLen else cap

/-- Capacity chosen by bufPush when the appended data does not fit. -/
def growCap (cap newLen : Nat) : Nat := growCapGo newLen cap newLen

/-- Writes src into tgt starting at offset off, modelling Buffer.copy at
call sites where the write fits inside the target (every call site below
guarantees off plus the source length is at most the target length). -/
def writeAt (tgt : List Nat) (off : Nat) (src : List Nat) : List Nat :=
  tgt.take off ++ src ++ tgt.drop (off + src.length)

/-- Models bufPush of src/index.ts lines 22-35: grow the store when the
new length exceeds its capacity, doubling from a floor of 32 until the
data fits, copy the old store to the front of the grown one, then copy
the appended data after the current logical end and bump the length. -/
def bufPush (b : DynBufM) (d : List Nat) : DynBufM :=
  let newLen := b.length + d.length
  let data1 :=
    if b.data.length < newLen then
      let cap := growCap (max b.data.length 32) newLen
      writeAt (List.replicate cap 0) 0 b.data
    else b.data
  { data := writeAt data1 b.length d, length := newLen }

/-- Models Buffer.copyWithin(0, start, finish): the region from start up
to finish is copied to the front of the store; the bytes past the copied
segment keep their old values. -/
def copyWithin (t : List Nat) (start finish : Nat) : List Nat :=
  let seg := (t.drop start).take (finish - start)
  seg ++ t.drop seg.length

/-- Models bufPop of src/index.ts lines 37-40: shift the bytes of the
region from len up to length to the front and decrease the length.  The
source decrements a signed number; under the documented precondition
len at most length the Nat subtraction below agrees with it. -/
def bufPop (b : DynBufM) (len : Nat) : DynBufM :=
  { data := copyWithin b.data len b.length, length := b.length - len }

/-- One buffer operation of the reference model of the spec. -/
inductive BufOp where
  | push (d : List Nat)
  | pop (n : Nat)
deriving DecidableEq, Repr

/-- Runs one operation on the embedded buffer. -/
def applyOp (b : DynBufM) : BufOp → DynBufM
  | .push d => bufPush b d
  | .pop n => bufPop b n

/-- Runs a sequence of operations on the embedded buffer. -/
def applyOps (ops : List BufOp) (b : DynBufM) : DynBufM := ops.foldl applyOp b

/-- Reference model of one operation: append is list concatenation, pop
removes a prefix. -/
def modelOp (l : List Nat) : BufOp → List Nat
  | .push d => l ++ d
  | .pop n => l.drop n

/-- Reference model of a sequence of operations. -/
def modelOps (ops : List BufOp) (l : List Nat) : List Nat := ops.foldl modelOp l

/-- Checks that every pop in the sequence consumes at most the logical
length current at that point, tracking only the length. -/
def validOps : List BufOp → Nat → Bool
  | [], _ => true
  | .push d :: ops, n => validOps ops (n + d.length)
  | .pop k :: ops, n => decide (k ≤ n) && validOps ops (n - k)

/-- Maximum size of a request header block (src/index.ts line 110). -/
def kMaxHeaderLen : Nat := 1024 * 8

/-- Models splitLines of src/index.ts lines 157-172: cut the data at
every CRLF pair; a trailing run without CRLF becomes a final line, and
nothing is emitted for it when it is empty. -/
def splitLines : List Nat → List (List Nat) := go []
where
  /-- Accumulates the bytes of the current line in reverse. -/
  go : List Nat → List Nat → List (List Nat)
  | acc, 13 :: 10 :: rest => acc.reverse :: go [] rest
  | acc, b :: rest => go (b :: acc) rest
  | acc, [] => if acc = [] then [] else [acc.reverse]

/-- Models validateHeader of src/index.ts lines 182-184: the line must
contain a colon at a position greater than zero. -/
def validateHeader (header : List Nat) : Bool :=
  match findSub header [58] with
  | some idx => 0 < idx
  | none => false

/-- Models parseRequestLine of src/index.ts lines 174-180: split the
line on single spaces (empty fragments kept, as the JavaScript split
does) and require exactly three nonempty parts. -/
def splitOnSpace : List Nat → List (List Nat)
  | [] => [[]]
  | b :: rest =>
    if b = 32 then [] :: splitOnSpace rest
    else
      match splitOnSpace rest with
      | [] => [[b]]
      | g :: gs => (b :: g) :: gs

/-- Parsed request of src/types.ts: method, uri, version and the raw
header lines. -/
structure HTTPReqM where
  method : List Nat
  uri : List Nat
  version : List Nat
  headers : List (List Nat)
deriving DecidableEq, Repr

/-- Models parseRequestLine: three space-separated nonempty tokens or a
400 error. -/
def parseRequestLine (line : List Nat) : Except ServerErr (List Nat × List Nat × List Nat) :=
  match splitOnSpace line with
  | [m, u, v] =>
    if m = [] ∨ u = [] ∨ v = [] then .error (.http 400 ("Invalid request line."))
    else .ok (m, u, v)
  | _ => .error (.http 400 ("Invalid request line."))

/-- Collects the header lines after the request line, skipping empty
lines and rejecting any nonempty line without an interior colon,
modelling the loop of src/index.ts lines 142-151. -/
def collectHeaders : List (List Nat) → Except ServerErr (List (List Nat))
  | [] => .ok []
  | l :: ls =>
    if 0 < l.length then
      if validateHeader l then (collectHeaders ls).map (l :: ·)
      else .error (.http 400 ("bad field."))
    else collectHeaders ls

/-- Models parseHTTPReq of src/index.ts lines 128-155.  The source also
guards against an undefined first line, which cannot occur once the
line list is nonempty, so that branch is unreachable and not modelled. -/
def parseHTTPReq (data : List Nat) : Except ServerErr HTTPReqM :=
  match splitLines data with
  | [] => .error (.http 400 ("empty request."))
  | firstLine :: rest =>
    match parseRequestLine firstLine with
    | .error e => .error e
    | .ok (m, u, v) =>
      match collectHeaders rest with
      | .error e => .error e
      | .ok hs => .ok { method := m, uri := u, version := v, headers := hs }

/-- Models cutMessage of src/index.ts lines 113-125: look for the CRLF
CRLF boundary in the unread region; absent and the region already at the
header cap, fail with 413; absent below the cap, report need-more-data
(none) leaving the buffer untouched; present, parse the block including
the boundary and pop it from the buffer. -/
def cutMessage (buf : DynBufM) : Except ServerErr (Option (HTTPReqM × DynBufM)) :=
  match findSub (bufContents buf) [13, 10, 13, 10] with
  | none =>
    if buf.length ≥ kMaxHeaderLen then .error (.http 413 ("header is too large"))
    else .ok none
  | some idx =>
    match parseHTTPReq ((bufContents buf).take (idx + 4)) with
    | .error e => .error e
    | .ok msg => .ok (some (msg, bufPop buf (idx + 4)))

/-- Failure of the chunk-decoding machine.  thrown wraps an error the
source actually throws; popOutOfRange is the totalization marker for a
bufPop whose argument exceeds the logical length, which in the source
silently drives the length negative. -/
inductive ChunkFail where
  | thrown (e : ServerErr)
  | popOutOfRange
deriving DecidableEq, Repr

/-- Prefix removal totalized: none exactly when the source bufPop would
be called with more bytes than the buffer holds. -/
def bufPopChecked (l : List Nat) (n : Nat) : Option (List Nat) :=
  if n ≤ l.length then some (l.drop n) else none

/-- State of the chunk-decoding generator readChunks: the connection
buffer contents, the packets the connection will still deliver (an
exhausted list meaning the peer has ended, so a further read yields the
empty buffer), and the last flag of the loop. -/
structure ChunkState where
  buf : List Nat
  incoming : List (List Nat)
  last : Bool
deriving DecidableEq, Repr

/-- Models bufExpectMore of src/index.ts lines 97-107 for the chunk-data
context: one soRead, pushed into the buffer; an empty delivery is an
unexpected end of stream, thrown as a plain Error. -/
def bufExpectMore (buf : List Nat) (incoming : List (List Nat)) :
    Except ChunkFail (List Nat × List (List Nat)) :=
  match incoming with
  | [] => .error (.thrown (.plain ("Unexpected EOF while reading chunk data.")))
  | p :: rest =>
    if p = [] then .error (.thrown (.plain ("Unexpected EOF while reading chunk data.")))
    else .ok (buf ++ p, rest)

/-- Inner loop of readChunks (src/index.ts lines 255-264): while remain
is positive, refill the buffer when it is empty, then consume min(remain,
buffered) bytes and yield them.  The fuel argument makes the recursion
structural; the call below passes the Nat value of remain, which always
suffices because each pass consumes at least one byte. -/
def readChunkData : Nat → Int → List Nat → List (List Nat) →
    Except ChunkFail (List (List Nat) × List Nat × List (List Nat))
  | 0, _, buf, incoming => .ok ([], buf, incoming)
  | fuel + 1, remain, buf, incoming =>
    if 0 < remain then
      match (if buf = [] then bufExpectMore buf incoming else .ok (buf, incoming)) with
      | .error e => .error e
      | .ok (buf1, inc1) =>
        let consume := min remain.toNat buf1.length
        match readChunkData fuel (remain - consume) (buf1.drop consume) inc1 with
        | .error e => .error e
        | .ok (chunks, buf2, inc2) => .ok (buf1.take consume :: chunks, buf2, inc2)
    else .ok ([], buf, incoming)

/-- One pass of the outer loop of readChunks (src/index.ts lines
238-268).  When no CRLF is buffered the source hits a continue whose
need-more-data read was omitted, so the state is returned unchanged.
Otherwise the chunk-size line is parsed as hexadecimal (a NaN throws a
plain Error), the line plus CRLF is popped, the chunk data is consumed
and yielded, and finally two bytes are popped for the trailing CRLF
without any check that they are buffered. -/
def readChunksStep (s : ChunkState) :
    Except ChunkFail (List (List Nat) × ChunkState) :=
  match findSub s.buf [13, 10] with
  | none => .ok ([], s)
  | some idx =>
    let chunkSizeLine := s.buf.take idx
    match jsParseInt chunkSizeLine (some 16) with
    | none => .error (.thrown (.plain ("Invalid chunk size")))
    | some remain =>
      let buf1 := s.buf.drop (idx + 2)
      let isLast := remain = 0
      match readChunkData remain.toNat remain buf1 s.incoming with
      | .error e => .error e
      | .ok (chunks, buf2, inc2) =>
        match bufPopChecked buf2 2 with
        | none => .error .popOutOfRange
        | some buf3 => .ok (chunks, { buf := buf3, incoming := inc2, last := decide isLast })

/-- Runs at most fuel passes of the outer readChunks loop, concatenating
the yielded chunks, and stopping once the last flag is set. -/
def runChunks : Nat → ChunkState → Except ChunkFail (List (List Nat) × ChunkState)
  | 0, s => .ok ([], s)
  | fuel + 1, s =>
    if s.last then .ok ([], s)
    else
      match readChunksStep s with
      | .error e => .error e
      | .ok (cs, s1) =>
        match runChunks fuel s1 with
        | .error e => .error e
        | .ok (cs', s2) => .ok (cs ++ cs', s2)

/-- Chunk framing of one pull in writeHTTPResp (src/index.ts lines
434-441): hex length, CRLF, data, CRLF. -/
def encodeChunk (d : List Nat) : List Nat :=
  natToHex d.length ++ [13, 10] ++ d ++ [13, 10]

/-- Body loop of writeHTTPResp under chunked framing (src/index.ts lines
430-445): pull chunks until the first empty pull, which sets last and is
itself encoded as the terminal chunk; an exhausted list models a reader
that has reached end of body and keeps returning the empty buffer. -/
def writeChunkedBody : List (List Nat) → List Nat
  | [] => encodeChunk []
  | d :: rest => if d = [] then encodeChunk [] else encodeChunk d ++ writeChunkedBody rest


/-- Framing outcome of readerFromReq: a length-bounded reader over n
bytes or the chunked-decoding reader. -/
inductive Framing where
  | length (n : Nat)
  | chunked
deriving DecidableEq, Repr

/-- Models readerFromReq of src/index.ts lines 186-216 on the results of
the two fieldGet lookups.  A present Content-Length is parsed by the
JavaScript parseInt with no radix argument and only a NaN result is
rejected; GET and HEAD disallow a body, forcing the effective length to
zero; a nonnegative length selects the length-bounded reader, otherwise
a Transfer-Encoding equal to chunked selects the chunked reader, and
otherwise the request is rejected. -/
def readerFromReq (method : List Nat) (contentLen : Option (List Nat))
    (transferEnc : Option (List Nat)) : Except ServerErr Framing :=
  let parsed : Except ServerErr Int :=
    match contentLen with
    | none => .ok (-1)
    | some v =>
      match jsParseInt v none with
      | none => .error (.http 400 ("Invalid Content-Length."))
      | some n => .ok n
  match parsed with
  | .error e => .error e
  | .ok bodyLen =>
    let bodyAllowed := ¬(method = toBytes "GET" ∨ method = toBytes "HEAD")
    let chunked := transferEnc = some (toBytes "chunked")
    if ¬bodyAllowed ∧ (0 < bodyLen ∨ chunked) then
      .error (.http 400 ("Body not allowed for this method."))
    else
      let bodyLen := if ¬bodyAllowed then 0 else bodyLen
      if 0 ≤ bodyLen then .ok (.length bodyLen.toNat)
      else if chunked then .ok .chunked
      else .error (.http 400 ("Missing Content-Length or Transfer-Encoding."))

/-- State of the reader built by readerFromConnLength (src/index.ts
lines 271-298): the captured remain counter, the connection buffer
contents and the packets the connection will still deliver (an
exhausted list meaning the peer has ended, so soRead yields the empty
buffer). -/
structure LenState where
  remain : Nat
  buf : List Nat
  incoming : List (List Nat)
deriving DecidableEq, Repr

/-- One read() of the length-bounded reader: zero remaining returns the
empty buffer at once; an empty buffer first takes one soRead delivery,
an empty delivery being thrown as unexpected EOF; then min(buffered,
remaining) bytes are consumed and returned. -/
def lenRead (s : LenState) : Except ServerErr (List Nat × LenState) :=
  if s.remain = 0 then .ok ([], s)
  else
    match (if s.buf = [] then
      match s.incoming with
      | [] => .error (.plain ("Unexpected EOF from HTTP body"))
      | p :: rest =>
        if p = [] then .error (.plain ("Unexpected EOF from HTTP body"))
        else .ok (s.buf ++ p, rest)
    else .ok (s.buf, s.incoming) : Except ServerErr (List Nat × List (List Nat))) with
    | .error e => .error e
    | .ok (buf1, inc1) =>
      let consume := min buf1.length s.remain
      .ok (buf1.take consume, ⟨s.remain - consume, buf1.drop consume, inc1⟩)

/-- Runs k successive read() calls of the length-bounded reader,
collecting the returned buffers. -/
def lenReads : Nat → LenState → Except ServerErr (List (List Nat) × LenState)
  | 0, s => .ok ([], s)
  | k + 1, s =>
    match lenRead s with
    | .error e => .error e
    | .ok (d, s1) =>
      match lenReads k s1 with
      | .error e => .error e
      | .ok (ds, s2) => .ok (d :: ds, s2)

/-- Total number of bytes in a list of read results. -/
def totalLen (ds : List (List Nat)) : Nat := (ds.map List.length).sum

/-- State of one BodyReader, covering the four variants of the source:
len is readerFromConnLength; mem is readerFromMemory with its done flag;
gen is readerFromGenerator over the remaining yields of the generator (a
finished generator keeps reporting done, modelled by the empty list);
file is readerFromStaticFile with the got counter, the committed size
and the results the file handle will still deliver (exhausted meaning
every further read reports zero bytes). -/
inductive RState where
  | len (s : LenState)
  | mem (data : List Nat) (done : Bool)
  | gen (yields : List (List Nat))
  | file (got size : Nat) (reads : List (List Nat))
deriving DecidableEq, Repr

/-- One read() of a BodyReader, following the four read implementations
of src/index.ts lines 271-346. -/
def readStep : RState → Except ServerErr (List Nat × RState)
  | .len s =>
    match lenRead s with
    | .error e => .error e
    | .ok (d, s1) => .ok (d, .len s1)
  | .mem data done => if done then .ok ([], .mem data true) else .ok (data, .mem data true)
  | .gen [] => .ok ([], .gen [])
  | .gen (y :: rest) => .ok (y, .gen rest)
  | .file got size reads =>
    let r := reads.headD []
    let got1 := got + r.length
    if size < got1 ∨ (got1 < size ∧ r.length = 0) then
      .error (.plain ("file size changed, abandon it!"))
    else .ok (r, .file got1 size reads.tail)

/-- Runs k successive read() calls of a BodyReader. -/
def runReader : Nat → RState → Except ServerErr (List (List Nat) × RState)
  | 0, s => .ok ([], s)
  | k + 1, s =>
    match readStep s with
    | .error e => .error e
    | .ok (d, s1) =>
      match runReader k s1 with
      | .error e => .error e
      | .ok (ds, s2) => .ok (d :: ds, s2)

/-- Decision taken by serverClient after a response has been written
(src/index.ts lines 472-477). -/
inductive DriverNext where
  | close
  | drainAndLoop
deriving DecidableEq, Repr

/-- Models the persistence decision of serverClient: the connection is
closed exactly when the stored version string equals 1.0; any other
version falls through to the drain loop and then frames the next
request. -/
def afterResponse (version : List Nat) : DriverNext :=
  if version = toBytes "1.0" then .close else .drainAndLoop


/-- All entries of the list are the empty buffer. -/
def allNilB (l : List (List Nat)) : Bool := l.all (· = [])

/-- After the first empty delivery every later delivery is empty too:
the well-behavedness of a file handle whose underlying file does not
grow again after end-of-file was observed. -/
def eofStableB : List (List Nat) → Bool
  | [] => true
  | p :: rest => (decide (p ≠ []) || allNilB rest) && eofStableB rest

/-- Sources for which the repository constructs readers: the connection
and memory variants unconditionally, the generator variant when the
backing generator never yields an empty buffer before finishing (true of
both generators of the repository, the chunk decoder and the demo
counter), and the file variant when the file stops delivering bytes once
end-of-file was reached. -/
def wellBehaved : RState → Bool
  | .len _ => true
  | .mem _ _ => true
  | .gen ys => ys.all (· ≠ [])
  | .file _ _ reads => eofStableB reads

/-- States from which every further read returns the empty buffer. -/
def atEOF : RState → Bool
  | .len s => decide (s.remain = 0)
  | .mem _ done => done
  | .gen ys => decide (ys = [])
  | .file got size reads => decide (got = size) && allNilB reads

section Claims

/-- C1: the claim states that a chunk-size line whose CRLF boundary is
not yet buffered makes readChunks pull more bytes from the connection
and retry, so that a well-formed chunked body split across reads is
decoded completely.  The code instead hits a bare continue (the pull is
omitted in the source), so from a state whose buffer holds only the
split size-line prefix 3, with the rest of a well-formed body waiting on
the connection, any number of loop passes yields no chunk and leaves the
state untouched: the loop never terminates.  The second conjunct shows
the same body delivered in one piece decodes fine, isolating the split
as the trigger. -/
theorem readChunks_stalls_on_split_size_line :
    (∀ n, runChunks n ⟨toBytes "3", [toBytes "\r\nabc\r\n0\r\n\r\n"], false⟩ =
      .ok ([], ⟨toBytes "3", [toBytes "\r\nabc\r\n0\r\n\r\n"], false⟩)) ∧
    runChunks 2 ⟨toBytes "3\r\nabc\r\n0\r\n\r\n", [], false⟩ =
      .ok ([toBytes "abc"], ⟨[], [], true⟩) := by
  constructor
  · intro n
    induction n with
    | zero => rfl
    | succ n ih =>
      have hstep : readChunksStep ⟨toBytes "3", [toBytes "\r\nabc\r\n0\r\n\r\n"], false⟩ =
          .ok ([], ⟨toBytes "3", [toBytes "\r\nabc\r\n0\r\n\r\n"], false⟩) := by decide
      simp [runChunks, hstep, ih]
  · decide

/-- C3 counterexample: an invalid chunk-size encoding, a protocol
violation of the taxonomy, is thrown by readChunks as a plain Error
carrying no status code, and the connection handler of newConn writes an
error response only for HTTPError values, so this violation closes the
connection without any 400-class response, contrary to the claim. -/
theorem chunkSizeError_gets_no_response :
    readChunksStep ⟨toBytes "zz\r\n", [], false⟩ =
      .error (.thrown (.plain ("Invalid chunk size"))) ∧
    respondsWith (.plain ("Invalid chunk size")) = none := by
  exact ⟨by decide, rfl⟩

/-- C3 amended: an error carries a status code to the peer exactly when
it is an HTTPError; the header-parsing violations are HTTPError values
with 400-class codes, but the invalid chunk-size encoding and the
unexpected end-of-stream during body reading are plain Error values, so
those close the connection without any response attempt. -/
theorem violation_response_classification :
    (∀ code : Nat, ∀ msg : String, respondsWith (.http code msg) = some code) ∧
    (∀ msg : String, respondsWith (.plain msg) = none) ∧
    parseRequestLine (toBytes "BADLINE") = .error (.http 400 ("Invalid request line.")) ∧
    bufExpectMore [] [] = .error (.thrown (.plain ("Unexpected EOF while reading chunk data."))) ∧
    lenRead ⟨5, [], []⟩ = .error (.plain ("Unexpected EOF from HTTP body")) := by
  refine ⟨fun _ _ => rfl, fun _ => rfl, by decide, rfl, by decide⟩

/-- C4 counterexample: encoding the chunk sequence ab, empty, cde with
the chunked response writer stops at the first empty pull, emitting only
the ab chunk and the terminal chunk; decoding that wire form therefore
yields just ab before end-of-body, not ab followed by cde as the claim
states. -/
theorem chunked_roundtrip_drops_after_empty :
    runChunks 2 ⟨writeChunkedBody [toBytes "ab", [], toBytes "cde"], [], false⟩ =
      .ok ([toBytes "ab"], ⟨[], [], true⟩) ∧
    [toBytes "ab"] ≠ [toBytes "ab", toBytes "cde"] := by
  exact ⟨by decide, by decide⟩

/-- C5: the claim states the two-byte CRLF pops after chunk data and
after the terminal chunk always satisfy the consume precondition.  When
the trailing CRLF has not yet been delivered, the source pops 2 from an
empty buffer, driving the logical length negative; in the totalized
embedding both sites reach the out-of-range marker: after a data chunk
whose CRLF is still in flight, and after a terminal chunk in the same
position. -/
theorem readChunks_pop_out_of_range_reachable :
    readChunksStep ⟨toBytes "3\r\nabc", [toBytes "\r\n"], false⟩ = .error .popOutOfRange ∧
    readChunksStep ⟨toBytes "0\r\n", [toBytes "\r\n"], false⟩ = .error .popOutOfRange := by
  exact ⟨by decide, by decide⟩

end Claims

/-- Splitting a list without the space byte yields that single fragment. -/
theorem splitOnSpace_no_space (l : List Nat) (h : 32 ∉ l) : splitOnSpace l = [l] := by
  induction l with
  | nil => rfl
  | cons b rest ih =>
    have hb : b ≠ 32 := fun hb => h (hb ▸ List.mem_cons_self b rest)
    have hrest : 32 ∉ rest := fun hm => h (List.mem_cons_of_mem b hm)
    simp [splitOnSpace, hb, ih hrest]

/-- Splitting peels off a space-free fragment before the first space. -/
theorem splitOnSpace_append (m t : List Nat) (h : 32 ∉ m) :
    splitOnSpace (m ++ 32 :: t) = m :: splitOnSpace t := by
  induction m with
  | nil => simp [splitOnSpace]
  | cons b m' ih =>
    have hb : b ≠ 32 := fun hb => h (hb ▸ List.mem_cons_self b m')
    have hm' : 32 ∉ m' := fun hm => h (List.mem_cons_of_mem b hm)
    simp [splitOnSpace, hb, ih hm']

section Claims2

/-- C2 counterexample: the wire form of an HTTP/1.0 request line stores
the version token HTTP/1.0, and the driver compares the stored token
against the literal 1.0, so after responding it does not close but
proceeds to drain and frame the next request, contrary to the claim. -/
theorem http10_wire_version_not_closed :
    parseRequestLine (toBytes "GET / HTTP/1.0") =
      .ok (toBytes "GET", toBytes "/", toBytes "HTTP/1.0") ∧
    afterResponse (toBytes "HTTP/1.0") = .drainAndLoop ∧
    DriverNext.drainAndLoop ≠ DriverNext.close := by
  exact ⟨by decide, by decide, by decide⟩

/-- C2 amended: the parser stores the third space-separated token of the
request line verbatim as the version, and the driver closes the
connection immediately after the response exactly when that stored token
is the literal string 1.0; every other token, the wire forms HTTP/1.0
and HTTP/1.1 included, sends the driver through the body-drain loop and
back to framing the next request. -/
theorem version_gated_persistence (m u v : List Nat)
    (hm : m ≠ []) (hu : u ≠ []) (hv : v ≠ [])
    (hm32 : 32 ∉ m) (hu32 : 32 ∉ u) (hv32 : 32 ∉ v) :
    parseRequestLine (m ++ 32 :: (u ++ 32 :: v)) = .ok (m, u, v) ∧
    (afterResponse v = .close ↔ v = toBytes "1.0") ∧
    afterResponse (toBytes "HTTP/1.0") = .drainAndLoop ∧
    afterResponse (toBytes "HTTP/1.1") = .drainAndLoop := by
  refine ⟨?_, ?_, by decide, by decide⟩
  · rw [parseRequestLine, splitOnSpace_append m _ hm32, splitOnSpace_append u _ hu32,
      splitOnSpace_no_space v hv32]
    simp [hm, hu, hv]
  · constructor
    · intro h
      by_contra hne
      simp [afterResponse, hne] at h
    · intro h
      simp [afterResponse, h]

/-- C2 witness: the amended theorem applied to a request line whose
version token is the literal 1.0. -/
theorem version_gated_persistence_witness :
    parseRequestLine (toBytes "GET" ++ 32 :: (toBytes "/" ++ 32 :: toBytes "1.0")) =
      .ok (toBytes "GET", toBytes "/", toBytes "1.0") ∧
    (afterResponse (toBytes "1.0") = .close ↔ toBytes "1.0" = toBytes "1.0") ∧
    afterResponse (toBytes "HTTP/1.0") = .drainAndLoop ∧
    afterResponse (toBytes "HTTP/1.1") = .drainAndLoop :=
  version_gated_persistence (toBytes "GET") (toBytes "/") (toBytes "1.0")
    (by decide) (by decide) (by decide) (by decide) (by decide) (by decide)

end Claims2

/-- One successful read of the length-bounded reader accounts exactly
for the decrease of the remain counter. -/
theorem lenRead_sum (s : LenState) (d : List Nat) (s1 : LenState)
    (h : lenRead s = .ok (d, s1)) : d.length + s1.remain = s.remain := by
  rw [lenRead] at h
  by_cases h0 : s.remain = 0
  · simp [h0] at h
    obtain ⟨hd, hs⟩ := h
    simp [← hd, ← hs, h0]
  · simp [h0] at h
    rcases hbuf : s.buf with _ | ⟨b, bs⟩
    · rcases hinc : s.incoming with _ | ⟨p, ps⟩
      · simp [hbuf, hinc] at h
      · by_cases hp : p = []
        · simp [hbuf, hinc, hp] at h
        · simp [hbuf, hinc, hp] at h
          obtain ⟨hd, hs⟩ := h
          have : d.length = min p.length s.remain := by
            rw [← hd]; simp
          rw [← hs]
          simp only [this]
          omega
    · simp [hbuf] at h
      obtain ⟨hd, hs⟩ := h
      have hlen : d.length = min (b :: bs).length s.remain := by
        rw [← hd]; simp
      rw [← hs]
      simp only [List.length_cons] at hlen ⊢
      omega

/-- A successful read with a positive remain counter returns at least
one byte. -/
theorem lenRead_pos_nonempty (s : LenState) (d : List Nat) (s1 : LenState)
    (h : lenRead s = .ok (d, s1)) (h0 : s.remain ≠ 0) : d ≠ [] := by
  rw [lenRead] at h
  simp [h0] at h
  rcases hbuf : s.buf with _ | ⟨b, bs⟩
  · rcases hinc : s.incoming with _ | ⟨p, ps⟩
    · simp [hbuf, hinc] at h
    · by_cases hp : p = []
      · simp [hbuf, hinc, hp] at h
      · simp [hbuf, hinc, hp] at h
        obtain ⟨hd, _⟩ := h
        rcases hq : p with _ | ⟨q, qs⟩
        · exact absurd hq hp
        · rw [← hd]
          simp [hq]
          omega
  · simp [hbuf] at h
    obtain ⟨hd, _⟩ := h
    rw [← hd]
    simp
    omega

/-- Reads from an exhausted length-bounded reader return empty buffers
and leave the state unchanged. -/
theorem lenReads_exhausted (j : Nat) (s : LenState) (h : s.remain = 0) :
    lenReads j s = .ok (List.replicate j [], s) := by
  induction j with
  | zero => rfl
  | succ j ih =>
    have h1 : lenRead s = .ok ([], s) := by rw [lenRead]; simp [h]
    simp [lenReads, h1, ih, List.replicate_succ]

/-- Successful read sequences account exactly for the remain decrease. -/
theorem lenReads_sum (k : Nat) (s : LenState) (outs : List (List Nat)) (s1 : LenState)
    (h : lenReads k s = .ok (outs, s1)) : totalLen outs + s1.remain = s.remain := by
  induction k generalizing s outs with
  | zero =>
    simp [lenReads] at h
    obtain ⟨h1, h2⟩ := h
    subst h1
    subst h2
    simp [totalLen]
  | succ k ih =>
    rw [lenReads] at h
    rcases h1 : lenRead s with _ | ⟨d, s2⟩
    · simp [h1] at h
    · simp [h1] at h
      rcases h2 : lenReads k s2 with _ | ⟨ds, s3⟩
      · simp [h2] at h
      · simp [h2] at h
        obtain ⟨ho, hs⟩ := h
        have e1 := lenRead_sum s d s2 h1
        have e2 := ih s2 ds (hs ▸ h2)
        rw [← ho]
        simp [totalLen] at e2 ⊢
        omega

section Claims3

/-- C9: for the length-bounded reader over N declared bytes, any run of
successful read() calls yields at most N bytes in total; once exactly N
bytes have been yielded every further read() returns the empty buffer
without touching the state; and a read() issued with bytes still owed,
an empty buffer and a connection that delivers an empty buffer (either
because the peer ended or because the next delivery is empty) throws the
unexpected-EOF failure. -/
theorem readerFromConnLength_exactness (N k : Nat) (buf0 : List Nat)
    (inc : List (List Nat)) (outs : List (List Nat)) (s1 : LenState)
    (h : lenReads k ⟨N, buf0, inc⟩ = .ok (outs, s1)) :
    totalLen outs ≤ N ∧
    (totalLen outs = N → ∀ j, lenReads j s1 = .ok (List.replicate j [], s1)) ∧
    (∀ s : LenState, 0 < s.remain → s.buf = [] → s.incoming.headD [] = [] →
      lenRead s = .error (.plain ("Unexpected EOF from HTTP body"))) := by
  have hsum := lenReads_sum k _ outs s1 h
  simp only [] at hsum
  refine ⟨by omega, ?_, ?_⟩
  · intro htot j
    exact lenReads_exhausted j s1 (by omega)
  · intro s hr hb hh
    rw [lenRead]
    rcases hinc : s.incoming with _ | ⟨p, ps⟩
    · simp [Nat.pos_iff_ne_zero.mp hr, hb, hinc]
    · have hp : p = [] := by simpa [hinc] using hh
      simp [Nat.pos_iff_ne_zero.mp hr, hb, hinc, hp]

/-- C9 witness: the theorem applied to a reader over three declared
bytes fed by a two-byte buffered region and a one-byte delivery. -/
theorem readerFromConnLength_exactness_witness :
    totalLen [toBytes "ab", toBytes "c"] ≤ 3 ∧
    (totalLen [toBytes "ab", toBytes "c"] = 3 →
      ∀ j, lenReads j ⟨0, [], []⟩ = .ok (List.replicate j [], ⟨0, [], []⟩)) ∧
    (∀ s : LenState, 0 < s.remain → s.buf = [] → s.incoming.headD [] = [] →
      lenRead s = .error (.plain ("Unexpected EOF from HTTP body"))) :=
  readerFromConnLength_exactness 3 2 (toBytes "ab") [toBytes "c"]
    [toBytes "ab", toBytes "c"] ⟨0, [], []⟩ (by decide)

end Claims3

/-- A read that returns the empty buffer from a well-behaved source
lands in a state where end-of-body has been reached for good. -/
theorem readStep_empty_atEOF (s s1 : RState) (hw : wellBehaved s = true)
    (h : readStep s = .ok ([], s1)) : atEOF s1 = true ∧ wellBehaved s1 = true := by
  cases s with
  | len ls =>
    rcases h1 : lenRead ls with e | ⟨d, ls2⟩
    · simp [readStep, h1] at h
    · simp [readStep, h1] at h
      obtain ⟨hd, hs⟩ := h
      by_cases h0 : ls.remain = 0
      · have h2 : lenRead ls = .ok ([], ls) := by rw [lenRead]; simp [h0]
        rw [h2] at h1
        simp at h1
        rw [← hs, ← h1.2]
        simp [atEOF, wellBehaved, h0]
      · exact absurd hd (lenRead_pos_nonempty ls d ls2 h1 h0)
  | mem data done =>
    by_cases hdone : done = true
    · simp [readStep, hdone] at h
      rw [← h]
      simp [atEOF, wellBehaved]
    · simp at hdone
      simp [readStep, hdone] at h
      rw [← h.2]
      simp [atEOF, wellBehaved]
  | gen ys =>
    cases ys with
    | nil =>
      simp [readStep] at h
      rw [← h]
      simp [atEOF, wellBehaved]
    | cons y rest =>
      simp [readStep] at h
      simp [wellBehaved] at hw
      exact absurd h.1 hw.1
  | file got size reads =>
    simp only [readStep] at h
    split at h
    · simp at h
    · rename_i hc
      simp only [Except.ok.injEq, Prod.mk.injEq] at h
      obtain ⟨hr, hs⟩ := h
      rw [hr] at hc hs
      simp at hc hs
      have hgot : got = size := by omega
      rw [← hs]
      cases reads with
      | nil => simp [atEOF, wellBehaved, hgot, allNilB, eofStableB]
      | cons p rest =>
        have hp : p = [] := by simpa using hr
        simp [eofStableB, hp, wellBehaved] at hw
        simp [atEOF, wellBehaved, hgot, hw.1, hw.2]

/-- From an end-of-body state one read returns the empty buffer and
stays at end-of-body. -/
theorem readStep_atEOF (t : RState) (ht : atEOF t = true) :
    ∃ t1, readStep t = .ok ([], t1) ∧ atEOF t1 = true := by
  cases t with
  | len ls =>
    simp [atEOF] at ht
    refine ⟨.len ls, ?_, by simp [atEOF, ht]⟩
    have h2 : lenRead ls = .ok ([], ls) := by rw [lenRead]; simp [ht]
    simp [readStep, h2]
  | mem data done =>
    simp [atEOF] at ht
    exact ⟨.mem data true, by simp [readStep, ht], by simp [atEOF]⟩
  | gen ys =>
    simp [atEOF] at ht
    subst ht
    exact ⟨.gen [], by simp [readStep], by simp [atEOF]⟩
  | file got size reads =>
    simp [atEOF, allNilB] at ht
    obtain ⟨hgot, hnil⟩ := ht
    have hr : (reads.head?).getD [] = [] := by
      cases reads with
      | nil => rfl
      | cons p rest => simpa using hnil p (List.mem_cons_self p rest)
    have hnil' : allNilB reads.tail = true := by
      cases reads with
      | nil => rfl
      | cons p rest =>
        simp [allNilB]
        intro x hx
        exact hnil x (List.mem_cons_of_mem p hx)
    refine ⟨.file got size reads.tail, ?_, ?_⟩
    · simp [readStep, hr, hgot]
    · simp [atEOF, hgot, hnil']

/-- From an end-of-body state every run of reads returns only empty
buffers. -/
theorem runReader_atEOF (j : Nat) (t : RState) (ht : atEOF t = true) :
    ∃ t1, runReader j t = .ok (List.replicate j [], t1) ∧ atEOF t1 = true := by
  induction j generalizing t with
  | zero => exact ⟨t, rfl, ht⟩
  | succ j ih =>
    obtain ⟨t1, hstep, ht1⟩ := readStep_atEOF t ht
    obtain ⟨t2, hrun, ht2⟩ := ih t1 ht1
    exact ⟨t2, by simp [runReader, hstep, hrun, List.replicate_succ], ht2⟩

section Claims4

/-- C10 counterexample: the generator-backed reader over a generator
that yields an empty buffer and then more data returns the empty buffer
(the end-of-body marker of the BodyReader contract) on the first read
and fresh data on the second, so end-of-body is not stable for every
constructible reader of the four variants, contrary to the claim. -/
theorem genReader_empty_yield_unstable :
    runReader 2 (.gen [[], toBytes "x"]) = .ok ([[], toBytes "x"], .gen []) ∧
    toBytes "x" ≠ ([] : List Nat) := by
  exact ⟨by decide, by decide⟩

/-- C10 amended: end-of-body is stable for every reader variant over a
well-behaved source: unconditionally for the length-bounded and
in-memory variants, for the generator variant when the generator never
yields an empty buffer before finishing (as with both generators of the
repository), and for the file variant when the file delivers nothing
after end-of-file; once read() has returned the empty buffer, every
further read() returns the empty buffer as well, never new data and
never a failure. -/
theorem bodyReader_eof_stability (s s1 : RState)
    (hw : wellBehaved s = true) (h : readStep s = .ok ([], s1)) :
    ∀ j, ∃ t, runReader j s1 = .ok (List.replicate j [], t) ∧ atEOF t = true := by
  intro j
  exact runReader_atEOF j s1 (readStep_empty_atEOF s s1 hw h).1

/-- C10 witness: the amended theorem applied to an exhausted
length-bounded reader. -/
theorem bodyReader_eof_stability_witness :
    ∃ t, runReader 2 (.len ⟨0, [], []⟩) = .ok (List.replicate 2 [], t) ∧ atEOF t = true :=
  bodyReader_eof_stability (.len ⟨0, [], []⟩) (.len ⟨0, [], []⟩) (by decide) (by decide) 2

end Claims4

/-- An index reported by findSub is an occurrence, hence an infix. -/
theorem findSub_some_occurs (l pat : List Nat) (i : Nat) (h : findSub l pat = some i) :
    pat <:+: l := by
  induction l generalizing i with
  | nil =>
    rw [findSub] at h
    by_cases hp : pat = []
    · simp [hp]
    · simp [hp] at h
  | cons b rest ih =>
    rw [findSub] at h
    by_cases hp : pat.isPrefixOf (b :: rest) = true
    · exact (List.isPrefixOf_iff_prefix.mp hp).isInfix
    · simp [hp] at h
      rcases h2 : findSub rest pat with _ | j
      · rw [h2] at h
        simp at h
      · rw [h2] at h
        simp at h
        exact List.infix_cons (ih j h2)

section Claims5

/-- C7: when the unread region holds no CRLF CRLF boundary, cutMessage
fails with the 413 header-too-large error exactly when the unread length
has reached 8192 bytes, and otherwise reports need-more-data (returning
none) without failing and without touching the buffer. -/
theorem cutMessage_header_cap (buf : DynBufM)
    (h : ¬ ([13, 10, 13, 10] : List Nat) <:+: bufContents buf) :
    (kMaxHeaderLen ≤ buf.length → cutMessage buf = .error (.http 413 ("header is too large"))) ∧
    (buf.length < kMaxHeaderLen → cutMessage buf = .ok none) := by
  have hf : findSub (bufContents buf) [13, 10, 13, 10] = none := by
    rcases h2 : findSub (bufContents buf) [13, 10, 13, 10] with _ | i
    · rfl
    · exact absurd (findSub_some_occurs _ _ i h2) h
  constructor
  · intro hge
    rw [cutMessage, hf]
    simp [hge]
  · intro hlt
    rw [cutMessage, hf]
    simp [Nat.not_le.mpr hlt]

/-- C7 witness: the theorem applied to 8192 bytes of the letter a with
no boundary, and to a 3-byte boundary-free buffer. -/
theorem cutMessage_header_cap_witness :
    cutMessage ⟨List.replicate 8192 97, 8192⟩ = .error (.http 413 ("header is too large")) ∧
    cutMessage ⟨toBytes "abc", 3⟩ = .ok none :=
  ⟨(cutMessage_header_cap ⟨List.replicate 8192 97, 8192⟩ (by
      intro hinf
      have hc : bufContents ⟨List.replicate 8192 97, 8192⟩ = List.replicate 8192 97 := by
        rw [bufContents, List.take_replicate, Nat.min_self]
      rw [hc] at hinf
      have h13 : (13 : Nat) ∈ List.replicate 8192 97 := hinf.subset (by decide)
      have := List.eq_of_mem_replicate h13
      omega)).1 (by decide),
   (cutMessage_header_cap ⟨toBytes "abc", 3⟩ (by decide)).2 (by decide)⟩

/-- C6 counterexample: the Content-Length value 123abc is not a
non-negative decimal numeral, yet body-reader selection does not fail:
the JavaScript parseInt keeps the leading digit run, so a length-bounded
reader over 123 bytes is constructed, contrary to the claim. -/
theorem contentLength_garbage_suffix_accepted :
    readerFromReq (toBytes "POST") (some (toBytes "123abc")) none = .ok (.length 123) ∧
    (∀ e : ServerErr, Except.ok (Framing.length 123) ≠ (Except.error e :
      Except ServerErr Framing)) := by
  exact ⟨by decide, fun e => by simp⟩

/-- C6 amended: a present Content-Length is passed through the
JavaScript parseInt; only a value with no parseable leading integer
(NaN) fails with the 400 invalid-Content-Length error, a value parsing
to a negative integer fails with the 400 missing-length error, and a
value parsing to a nonnegative integer n, which for a well-formed
decimal numeral is exactly its value, yields the length-bounded reader
over n bytes (stated for a method that allows a body). -/
theorem contentLength_parse_selection (v : List Nat) (n : Int)
    (hp : jsParseInt v none = some n) (hn : 0 ≤ n) :
    readerFromReq (toBytes "POST") (some v) none = .ok (.length n.toNat) ∧
    (∀ w, jsParseInt w none = none →
      readerFromReq (toBytes "POST") (some w) none =
        .error (.http 400 ("Invalid Content-Length."))) ∧
    (∀ w : List Nat, ∀ k : Int, jsParseInt w none = some k → k < 0 →
      readerFromReq (toBytes "POST") (some w) none =
        .error (.http 400 ("Missing Content-Length or Transfer-Encoding."))) := by
  have hpost : ¬(toBytes "POST" = toBytes "GET" ∨ toBytes "POST" = toBytes "HEAD") := by decide
  refine ⟨?_, ?_, ?_⟩
  · rw [readerFromReq, hp]
    simp [hpost, hn]
  · intro w hw
    rw [readerFromReq, hw]
  · intro w k hw hk
    rw [readerFromReq, hw]
    simp [hpost, Int.not_le.mpr hk, Int.not_lt.mpr (Int.le_of_lt hk)]

/-- C6 witness: the amended theorem applied to the decimal value 42. -/
theorem contentLength_parse_selection_witness :
    readerFromReq (toBytes "POST") (some (toBytes "42")) none = .ok (.length (Int.toNat 42)) ∧
    (∀ w, jsParseInt w none = none →
      readerFromReq (toBytes "POST") (some w) none =
        .error (.http 400 ("Invalid Content-Length."))) ∧
    (∀ w : List Nat, ∀ k : Int, jsParseInt w none = some k → k < 0 →
      readerFromReq (toBytes "POST") (some w) none =
        .error (.http 400 ("Missing Content-Length or Transfer-Encoding."))) :=
  contentLength_parse_selection (toBytes "42") 42 (by decide) (by decide)

end Claims5

/-- The doubling loop lands on the first power-of-two multiple of the
starting capacity that fits the requested length. -/
theorem growCapGo_spec (f : Nat) : ∀ cap n : Nat, 0 < cap → n ≤ cap * 2 ^ f →
    ∃ k, k ≤ f ∧ growCapGo f cap n = cap * 2 ^ k ∧ n ≤ cap * 2 ^ k ∧
      ∀ j, n ≤ cap * 2 ^ j → k ≤ j := by
  induction f with
  | zero =>
    intro cap n hc hf
    refine ⟨0, Nat.le_refl 0, by simp [growCapGo], by simpa using hf, fun j _ => Nat.zero_le j⟩
  | succ f ih =>
    intro cap n hc hf
    by_cases hlt : cap < n
    · have hc2 : 0 < cap * 2 := by omega
      have hf2 : n ≤ cap * 2 * 2 ^ f := by
        have : cap * 2 * 2 ^ f = cap * 2 ^ (f + 1) := by ring
        omega
      obtain ⟨k, hk, he, hle, hmin⟩ := ih (cap * 2) n hc2 hf2
      have hpow : cap * 2 * 2 ^ k = cap * 2 ^ (k + 1) := by ring
      refine ⟨k + 1, by omega, ?_, by omega, ?_⟩
      · rw [growCapGo]
        simp only [hlt, if_true]
        omega
      · intro j hj
        cases j with
        | zero =>
          simp at hj
          omega
        | succ j =>
          have hj2 : n ≤ cap * 2 * 2 ^ j := by
            have : cap * 2 * 2 ^ j = cap * 2 ^ (j + 1) := by ring
            omega
          have := hmin j hj2
          omega
    · refine ⟨0, Nat.zero_le _, ?_, by simpa using Nat.not_lt.mp hlt, fun j _ => Nat.zero_le j⟩
      rw [growCapGo]
      simp [hlt]

/-- Capacity growth: a power-of-two multiple of the starting capacity,
large enough for the request, and minimally so. -/
theorem growCap_spec (cap n : Nat) (hc : 0 < cap) :
    ∃ k, growCap cap n = cap * 2 ^ k ∧ n ≤ cap * 2 ^ k ∧
      ∀ j, n ≤ cap * 2 ^ j → k ≤ j := by
  have hfit : n ≤ cap * 2 ^ n := by
    have h1 : n < 2 ^ n := Nat.lt_two_pow n
    have h2 : 2 ^ n ≤ cap * 2 ^ n := Nat.le_mul_of_pos_left _ hc
    omega
  obtain ⟨k, _, he, hle, hmin⟩ := growCapGo_spec n cap n hc hfit
  exact ⟨k, he, hle, hmin⟩

/-- Writing within the target leaves its length unchanged. -/
theorem writeAt_length (t : List Nat) (off : Nat) (s : List Nat)
    (h : off + s.length ≤ t.length) : (writeAt t off s).length = t.length := by
  simp [writeAt, List.length_take, List.length_drop]
  omega

/-- The written region and the preserved prefix of a fitting write. -/
theorem writeAt_take (t : List Nat) (off : Nat) (s : List Nat) (h : off ≤ t.length) :
    (writeAt t off s).take (off + s.length) = t.take off ++ s := by
  rw [writeAt, List.append_assoc, List.take_append_eq_append_take]
  have h1 : (t.take off).length = off := by
    rw [List.length_take]
    omega
  rw [h1, List.take_take, List.take_append_eq_append_take]
  simp

/-- Appending via bufPush extends the logical contents by the data and
preserves the capacity invariant. -/
theorem bufPush_contents (b : DynBufM) (d : List Nat) (hinv : b.length ≤ b.data.length) :
    bufContents (bufPush b d) = bufContents b ++ d ∧
    (bufPush b d).length = b.length + d.length ∧
    (bufPush b d).length ≤ (bufPush b d).data.length := by
  by_cases hgrow : b.data.length < b.length + d.length
  · have hc : 0 < max b.data.length 32 := by omega
    obtain ⟨k, he, hle, _⟩ := growCap_spec (max b.data.length 32) (b.length + d.length) hc
    set cap := growCap (max b.data.length 32) (b.length + d.length) with hcapdef
    have hcap1 : b.data.length ≤ cap := by
      have h2 : 0 < 2 ^ k := Nat.two_pow_pos k
      have h3 := Nat.mul_le_mul_left (max b.data.length 32) (by omega : 1 ≤ 2 ^ k)
      rw [Nat.mul_one] at h3
      omega
    have hcap2 : b.length + d.length ≤ cap := by omega
    have hpush : bufPush b d =
        { data := writeAt (writeAt (List.replicate cap 0) 0 b.data) b.length d,
          length := b.length + d.length } := by
      rw [bufPush]
      simp only [hgrow, if_true, ← hcapdef]
    have hd1 : writeAt (List.replicate cap 0) 0 b.data =
        b.data ++ (List.replicate cap 0).drop b.data.length := by
      simp [writeAt]
    have hd1len : (writeAt (List.replicate cap 0) 0 b.data).length = cap := by
      have := writeAt_length (List.replicate cap 0) 0 b.data (by simp [hcap1])
      simpa using this
    refine ⟨?_, by rw [hpush], ?_⟩
    · rw [hpush]
      simp only [bufContents]
      rw [writeAt_take _ _ _ (by rw [hd1len]; omega), hd1,
        List.take_append_of_le_length hinv]
    · rw [hpush]
      show b.length + d.length ≤
        (writeAt (writeAt (List.replicate cap 0) 0 b.data) b.length d).length
      rw [writeAt_length _ _ _ (by rw [hd1len]; omega), hd1len]
      omega
  · have hpush : bufPush b d =
        { data := writeAt b.data b.length d, length := b.length + d.length } := by
      rw [bufPush]
      simp only [hgrow, if_false]
    refine ⟨?_, by rw [hpush], ?_⟩
    · rw [hpush]
      simp only [bufContents]
      rw [writeAt_take _ _ _ (by omega)]
    · rw [hpush]
      show b.length + d.length ≤ (writeAt b.data b.length d).length
      rw [writeAt_length _ _ _ (by omega)]
      omega

/-- Consuming via bufPop drops a prefix of the logical contents and
preserves the capacity invariant. -/
theorem bufPop_contents (b : DynBufM) (len : Nat) (hlen : len ≤ b.length)
    (hinv : b.length ≤ b.data.length) :
    bufContents (bufPop b len) = (bufContents b).drop len ∧
    (bufPop b len).length = b.length - len ∧
    (bufPop b len).length ≤ (bufPop b len).data.length := by
  have hseg : ((b.data.drop len).take (b.length - len)).length = b.length - len := by
    rw [List.length_take, List.length_drop]
    omega
  refine ⟨?_, rfl, ?_⟩
  · simp only [bufContents, bufPop, copyWithin]
    rw [List.take_append_of_le_length (by rw [hseg]), List.take_take, Nat.min_self,
      List.drop_take]
  · simp only [bufPop, copyWithin]
    rw [List.length_append, hseg, List.length_drop]
    omega

/-- A valid operation sequence keeps the embedded buffer aligned with
the list model and preserves the capacity invariant. -/
theorem applyOps_contents (ops : List BufOp) : ∀ b : DynBufM, b.length ≤ b.data.length →
    validOps ops b.length = true →
    bufContents (applyOps ops b) = modelOps ops (bufContents b) ∧
    (applyOps ops b).length ≤ (applyOps ops b).data.length := by
  induction ops with
  | nil => exact fun b hinv _ => ⟨rfl, hinv⟩
  | cons op ops ih =>
    intro b hinv hv
    cases op with
    | push d =>
      rw [validOps] at hv
      obtain ⟨hc, hl, hi⟩ := bufPush_contents b d hinv
      obtain ⟨ih1, ih2⟩ := ih (bufPush b d) hi (by rw [hl]; exact hv)
      have ha : applyOps (.push d :: ops) b = applyOps ops (bufPush b d) := rfl
      have hm : modelOps (.push d :: ops) (bufContents b) =
          modelOps ops (bufContents b ++ d) := rfl
      rw [ha, hm, ih1, hc]
      exact ⟨rfl, ih2⟩
    | pop k =>
      rw [validOps] at hv
      simp only [Bool.and_eq_true, decide_eq_true_eq] at hv
      obtain ⟨hk, hv⟩ := hv
      obtain ⟨hc, hl, hi⟩ := bufPop_contents b k hk hinv
      obtain ⟨ih1, ih2⟩ := ih (bufPop b k) hi (by rw [hl]; exact hv)
      have ha : applyOps (.pop k :: ops) b = applyOps ops (bufPop b k) := rfl
      have hm : modelOps (.pop k :: ops) (bufContents b) =
          modelOps ops ((bufContents b).drop k) := rfl
      rw [ha, hm, ih1, hc]
      exact ⟨rfl, ih2⟩

section Claims6

/-- C8: for every operation sequence in which each consume stays within
the current logical length, the logical contents after every prefix of
the sequence equal the concatenation/prefix-removal reference model (the
quantification over sequences covers every intermediate state), growth
never loses, skips or duplicates unread bytes (the capacity invariant is
maintained), and the capacity chosen on growth is the minimal doubling
of the floored starting capacity that fits the appended data. -/
theorem buffer_model_correct (ops : List BufOp) (b : DynBufM)
    (hinv : b.length ≤ b.data.length) (hv : validOps ops b.length = true) :
    bufContents (applyOps ops b) = modelOps ops (bufContents b) ∧
    (applyOps ops b).length ≤ (applyOps ops b).data.length ∧
    (∀ cap n : Nat, 0 < cap → ∃ k : Nat, growCap cap n = cap * 2 ^ k ∧ n ≤ cap * 2 ^ k ∧
      ∀ j : Nat, n ≤ cap * 2 ^ j → k ≤ j) := by
  obtain ⟨h1, h2⟩ := applyOps_contents ops b hinv hv
  exact ⟨h1, h2, fun cap n hc => growCap_spec cap n hc⟩

/-- C8 witness: the theorem applied to a fresh buffer receiving hello,
losing its first two bytes and receiving one more byte. -/
theorem buffer_model_correct_witness :
    bufContents (applyOps [.push (toBytes "hello"), .pop 2, .push (toBytes "!")] ⟨[], 0⟩) =
      modelOps [.push (toBytes "hello"), .pop 2, .push (toBytes "!")] (bufContents ⟨[], 0⟩) ∧
    (applyOps [.push (toBytes "hello"), .pop 2, .push (toBytes "!")] ⟨[], 0⟩).length ≤
      (applyOps [.push (toBytes "hello"), .pop 2, .push (toBytes "!")] ⟨[], 0⟩).data.length ∧
    (∀ cap n : Nat, 0 < cap → ∃ k : Nat, growCap cap n = cap * 2 ^ k ∧ n ≤ cap * 2 ^ k ∧
      ∀ j : Nat, n ≤ cap * 2 ^ j → k ≤ j) :=
  buffer_model_correct [.push (toBytes "hello"), .pop 2, .push (toBytes "!")] ⟨[], 0⟩
    (by decide) (by decide)

end Claims6

/-- Hex rendering and hex parsing agree digit by digit. -/
theorem digitVal_hexDigitByte (m : Nat) (hm : m < 16) : digitVal 16 (hexDigitByte m) = some m := by
  by_cases hm10 : m < 10
  · have h1 : 48 ≤ 48 + m ∧ 48 + m ≤ 57 := by omega
    rw [hexDigitByte, if_pos hm10, digitVal, if_pos h1, if_pos (by omega)]
    congr 1
    omega
  · have h1 : ¬(48 ≤ 87 + m ∧ 87 + m ≤ 57) := by omega
    have h2 : ¬(65 ≤ 87 + m ∧ 87 + m ≤ 90) := by omega
    have h3 : 97 ≤ 87 + m ∧ 87 + m ≤ 122 := by omega
    rw [hexDigitByte, if_neg hm10, digitVal, if_neg h1, if_neg h2, if_pos h3, if_pos (by omega)]
    congr 1
    omega

/-- A byte accepted as a hex digit is at least 48 and is none of x, X or
carriage return. -/
theorem digitVal_isSome_facts (b : Nat) (h : (digitVal 16 b).isSome) :
    48 ≤ b ∧ b ≠ 88 ∧ b ≠ 120 := by
  rw [digitVal] at h
  split_ifs at h <;> simp_all <;> omega

/-- Every byte emitted by the hex renderer loop is a hex digit byte. -/
theorem mem_natToHexGo (fuel : Nat) : ∀ n b, b ∈ natToHexGo fuel n →
    ∃ m, m < 16 ∧ b = hexDigitByte m := by
  induction fuel with
  | zero =>
    intro n b hb
    simp [natToHexGo] at hb
  | succ fuel ih =>
    intro n b hb
    cases n with
    | zero => simp [natToHexGo] at hb
    | succ n =>
      rw [natToHexGo] at hb
      rcases List.mem_append.mp hb with h1 | h2
      · exact ih _ b h1
      · simp at h2
        exact ⟨(n + 1) % 16, Nat.mod_lt _ (by omega), h2⟩

/-- Every byte of a rendered hex length is a hex digit byte. -/
theorem mem_natToHex (n b : Nat) (hb : b ∈ natToHex n) : ∃ m, m < 16 ∧ b = hexDigitByte m := by
  rw [natToHex] at hb
  by_cases h0 : n = 0
  · rw [if_pos h0] at hb
    simp at hb
    exact ⟨0, by omega, by simp [hb, hexDigitByte]⟩
  · rw [if_neg h0] at hb
    exact mem_natToHexGo n n b hb

/-- With enough fuel a positive number renders at least one digit. -/
theorem natToHexGo_ne_nil (fuel n : Nat) (h0 : 0 < n) (hf : n ≤ fuel) :
    natToHexGo fuel n ≠ [] := by
  cases fuel with
  | zero => omega
  | succ fuel =>
    cases n with
    | zero => omega
    | succ n =>
      rw [natToHexGo]
      simp

/-- Digit extraction distributes over an all-digit prefix. -/
theorem takeDigits_append (l1 l2 : List Nat) (h : ∀ b ∈ l1, (digitVal 16 b).isSome) :
    takeDigits 16 (l1 ++ l2) = takeDigits 16 l1 ++ takeDigits 16 l2 := by
  induction l1 with
  | nil => simp [takeDigits]
  | cons b l1 ih =>
    obtain ⟨v, hv⟩ := Option.isSome_iff_exists.mp (h b (List.mem_cons_self b l1))
    rw [List.cons_append, takeDigits, hv, takeDigits, hv,
      ih (fun x hx => h x (List.mem_cons_of_mem b hx))]
    rfl

/-- Folding the digits of a rendered number recovers the number. -/
theorem foldHex_natToHexGo (fuel : Nat) : ∀ n, n ≤ fuel → ∀ acc : Nat,
    (takeDigits 16 (natToHexGo fuel n)).foldl (fun a d => a * 16 + d) acc =
      acc * 16 ^ (natToHexGo fuel n).length + n := by
  induction fuel with
  | zero =>
    intro n hn acc
    have h0 : n = 0 := by omega
    subst h0
    simp [natToHexGo, takeDigits]
  | succ fuel ih =>
    intro n hn acc
    cases n with
    | zero => simp [natToHexGo, takeDigits]
    | succ n =>
      rw [natToHexGo]
      have hdig : ∀ b ∈ natToHexGo fuel ((n + 1) / 16), (digitVal 16 b).isSome := by
        intro b hb
        obtain ⟨m, hm, rfl⟩ := mem_natToHexGo fuel _ b hb
        rw [digitVal_hexDigitByte m hm]
        rfl
      have hdiv : (n + 1) / 16 ≤ fuel := by
        have := Nat.div_lt_self (Nat.succ_pos n) (by omega : 1 < 16)
        omega
      rw [takeDigits_append _ _ hdig, List.foldl_append, ih _ hdiv acc,
        takeDigits, digitVal_hexDigitByte _ (Nat.mod_lt _ (by omega)), takeDigits]
      simp only [List.foldl_cons, List.foldl_nil, List.length_append, List.length_cons,
        List.length_nil, Nat.zero_add]
      rw [pow_succ, ← Nat.mul_assoc]
      generalize acc * 16 ^ (natToHexGo fuel ((n + 1) / 16)).length = P
      omega

/-- A list of hex digit bytes passes strip0x unchanged: its bytes are
never x or X, and a lone leading zero has nothing to strip. -/
theorem strip0x_digits (l : List Nat) (h : ∀ b ∈ l, (digitVal 16 b).isSome) :
    strip0x l = l := by
  rw [strip0x, if_neg]
  intro hcond
  obtain ⟨h1, h2⟩ := hcond
  cases l with
  | nil => simp at h1
  | cons b rest =>
    cases rest with
    | nil => simp at h2
    | cons c rest2 =>
      have hc := digitVal_isSome_facts c (h c (by simp))
      simp at h2
      rcases h2 with h2 | h2 <;> omega

/-- The JavaScript parseInt with radix 16 consumes an all-hex-digit
input entirely and folds it in base 16. -/
theorem jsParseInt_hexDigits (b : Nat) (rest : List Nat)
    (h : ∀ x ∈ b :: rest, (digitVal 16 x).isSome) :
    jsParseInt (b :: rest) (some 16) =
      some (((takeDigits 16 (b :: rest)).foldl (fun a d => a * 16 + d) 0 : Nat) : Int) := by
  have hb := digitVal_isSome_facts b (h b (List.mem_cons_self b rest))
  have hnws : isWs b = false := by
    rw [isWs]
    simp
    omega
  obtain ⟨v, hv⟩ := Option.isSome_iff_exists.mp (h b (List.mem_cons_self b rest))
  have hds : takeDigits 16 (b :: rest) = v :: takeDigits 16 rest := by
    rw [takeDigits, hv]
  rw [jsParseInt]
  simp only [List.dropWhile_cons, hnws, Bool.false_eq_true, if_false, List.headD_cons]
  have h45 : ¬(b = 45 ∨ b = 43) := by omega
  have h45' : ¬b = 45 := by omega
  rw [if_neg h45, if_neg h45', strip0x_digits _ h, hds, if_neg (by simp)]
  simp

/-- Round trip: parsing the rendered hex length recovers the length. -/
theorem jsParseInt_natToHex (n : Nat) : jsParseInt (natToHex n) (some 16) = some (n : Int) := by
  by_cases h0 : n = 0
  · subst h0
    decide
  · have hne : natToHexGo n n ≠ [] := natToHexGo_ne_nil n n (by omega) (Nat.le_refl n)
    obtain ⟨b, rest, heq⟩ := List.exists_cons_of_ne_nil hne
    have hmem : ∀ x ∈ natToHexGo n n, (digitVal 16 x).isSome := by
      intro x hx
      obtain ⟨m, hm, rfl⟩ := mem_natToHexGo n n x hx
      rw [digitVal_hexDigitByte m hm]
      rfl
    have hfold := foldHex_natToHexGo n n (Nat.le_refl n) 0
    rw [natToHex, if_neg h0, heq, jsParseInt_hexDigits b rest (heq ▸ hmem), ← heq, hfold]
    simp

/-- No byte of a rendered hex length is a carriage return. -/
theorem natToHex_no_cr (n : Nat) : ∀ b ∈ natToHex n, b ≠ 13 := by
  intro b hb
  obtain ⟨m, hm, rfl⟩ := mem_natToHex n b hb
  rw [hexDigitByte]
  split_ifs <;> omega

/-- The first CRLF after a CR-free prefix sits right at its end. -/
theorem findSub_after_clean_prefix (pre : List Nat) : ∀ tail : List Nat,
    (∀ b ∈ pre, b ≠ 13) →
    findSub (pre ++ 13 :: 10 :: tail) [13, 10] = some pre.length := by
  induction pre with
  | nil =>
    intro tail _
    rw [List.nil_append, findSub]
    simp [List.isPrefixOf]
  | cons b pre ih =>
    intro tail h
    have hb : b ≠ 13 := h b (List.mem_cons_self b pre)
    rw [List.cons_append, findSub]
    have hpre : ¬([13, 10].isPrefixOf (b :: (pre ++ 13 :: 10 :: tail)) = true) := by
      simp [List.isPrefixOf]
      intro h13
      exact absurd h13.symm hb
    rw [if_neg hpre, ih tail (fun x hx => h x (List.mem_cons_of_mem b hx))]
    simp

/-- Dropping a prefix plus two bytes lands right after an inserted pair. -/
theorem drop_prefix_pair (pre : List Nat) (x y : Nat) (t : List Nat) :
    (pre ++ x :: y :: t).drop (pre.length + 2) = t := by
  have h1 : pre ++ x :: y :: t = (pre ++ [x, y]) ++ t := by simp
  have h2 : pre.length + 2 = (pre ++ [x, y]).length := by simp
  rw [h1, h2, List.drop_left]

/-- A zero remaining count reads nothing. -/
theorem readChunkData_zero (fuel : Nat) (buf : List Nat) (inc : List (List Nat)) :
    readChunkData fuel 0 buf inc = .ok ([], buf, inc) := by
  cases fuel with
  | zero => rfl
  | succ fuel =>
    rw [readChunkData]
    simp

/-- With the whole chunk buffered, the inner loop yields it in one piece
and leaves the bytes after it untouched. -/
theorem readChunkData_exact (d t : List Nat) (inc : List (List Nat)) (hd : d ≠ []) :
    readChunkData (↑d.length : Int).toNat (↑d.length) (d ++ t) inc = .ok ([d], t, inc) := by
  obtain ⟨c, cs, rfl⟩ := List.exists_cons_of_ne_nil hd
  rw [Int.toNat_ofNat, List.length_cons, readChunkData,
    if_pos (by exact_mod_cast Nat.succ_pos cs.length)]
  have hne : ¬((c :: cs) ++ t = []) := by simp
  rw [if_neg hne]
  have hconsume : min ((↑(cs.length + 1) : Int)).toNat ((c :: cs) ++ t).length =
      cs.length + 1 := by
    rw [Int.toNat_ofNat]
    simp
  simp only [hconsume]
  have htake : ((c :: cs) ++ t).take (cs.length + 1) = c :: cs := by
    rw [show cs.length + 1 = (c :: cs).length from rfl, List.take_left]
  have hdrop : ((c :: cs) ++ t).drop (cs.length + 1) = t := by
    rw [show cs.length + 1 = (c :: cs).length from rfl, List.drop_left]
  have hzero : (↑(cs.length + 1) : Int) - ↑(cs.length + 1) = 0 := by omega
  rw [htake, hdrop, hzero, readChunkData_zero]

/-- One outer pass over a complete encoded nonempty chunk yields exactly
that chunk and consumes exactly its frame. -/
theorem readChunksStep_encodeChunk (d rest : List Nat) (inc : List (List Nat)) (hd : d ≠ []) :
    readChunksStep ⟨encodeChunk d ++ rest, inc, false⟩ = .ok ([d], ⟨rest, inc, false⟩) := by
  have hassoc : encodeChunk d ++ rest =
      natToHex d.length ++ 13 :: 10 :: (d ++ 13 :: 10 :: rest) := by
    simp [encodeChunk]
  have hfind := findSub_after_clean_prefix (natToHex d.length) (d ++ 13 :: 10 :: rest)
    (natToHex_no_cr d.length)
  have hlen0 : d.length ≠ 0 := by
    cases d with
    | nil => exact absurd rfl hd
    | cons c cs => simp
  have hlast : decide ((↑d.length : Int) = 0) = false := by
    simp
    exact hd
  have hpop : bufPopChecked (13 :: 10 :: rest) 2 = some rest := by
    rw [bufPopChecked, if_pos (by simp)]
    rfl
  rw [readChunksStep]
  simp only [hassoc, hfind, List.take_left, jsParseInt_natToHex, drop_prefix_pair,
    readChunkData_exact d (13 :: 10 :: rest) inc hd, hpop, hlast]

/-- C4 amended: for a body whose reader yields no empty chunk before
finishing, encoding through the chunked response writer and decoding
through the chunked reader reproduces the chunk sequence exactly, with
the decoder stopping at the terminal chunk having consumed the whole
encoding.  A reader that yields an empty chunk mid-stream ends the
encoding at that point (see the counterexample), so the round trip of
ab, empty, cde yields just ab before end-of-body. -/
theorem chunked_roundtrip (cs : List (List Nat)) (h : ∀ c ∈ cs, c ≠ []) :
    runChunks (cs.length + 1) ⟨writeChunkedBody cs, [], false⟩ = .ok (cs, ⟨[], [], true⟩) := by
  induction cs with
  | nil => decide
  | cons c cs ih =>
    have hc : c ≠ [] := h c (List.mem_cons_self c cs)
    have hcs : ∀ x ∈ cs, x ≠ [] := fun x hx => h x (List.mem_cons_of_mem c hx)
    have hw : writeChunkedBody (c :: cs) = encodeChunk c ++ writeChunkedBody cs := by
      rw [writeChunkedBody, if_neg hc]
    have hstep := readChunksStep_encodeChunk c (writeChunkedBody cs) [] hc
    have hlen : (c :: cs).length + 1 = (cs.length + 1) + 1 := by simp
    rw [hlen, runChunks]
    simp only [hw, hstep, ih hcs]
    rfl

/-- C4 witness: the amended round trip applied to the two nonempty
chunks ab and cde. -/
theorem chunked_roundtrip_witness :
    runChunks ([toBytes "ab", toBytes "cde"].length + 1)
      ⟨writeChunkedBody [toBytes "ab", toBytes "cde"], [], false⟩ =
      .ok ([toBytes "ab", toBytes "cde"], ⟨[], [], true⟩) :=
  chunked_roundtrip [toBytes "ab", toBytes "cde"] (by decide)


end Srv
